import Mathlib

/-!
Shallow embedding of the daily-streak aggregation core of
`src/dailystreaks.py` (repository `roblox-sync-backend`).

Calendar dates are modelled as integers (days since a fixed epoch): the
Python code only ever uses dates through subtraction in whole days,
ordering, and one-day steps, all of which this model preserves exactly.
A `ContributionMap` (Python `Dict[dt.date, int]`) is modelled as an
association list `List (Int × Int)` with insertion order, matching a
Python dict: lookup finds the first entry with the key, assignment
replaces in place when the key is present and appends otherwise.
-/

/-- Output record of `compute_streaks` (Python dataclass `StreakStats`). -/
structure StreakStats where
  total_contributions : Int
  current_streak : Int
  longest_streak : Int
  current_start : Option Int
  current_end : Option Int
  longest_start : Option Int
  longest_end : Option Int
deriving DecidableEq, Repr

/-- Python dict lookup: the value of the first (and in a dict, only) entry
whose key is `d`. -/
def lookupCM (m : List (Int × Int)) (d : Int) : Option Int :=
  match m with
  | [] => none
  | p :: t => if p.1 = d then some p.2 else lookupCM t d

/-- Python `m.get(d, 0)`: the count stored for day `d`, or `0` when absent. -/
def getCount (m : List (Int × Int)) (d : Int) : Int :=
  (lookupCM m d).getD 0

/-- Python dict assignment `m[d] = v`: replace in place when the key is
present, append otherwise. -/
def setKey (m : List (Int × Int)) (d v : Int) : List (Int × Int) :=
  if d ∈ m.map Prod.fst then
    m.map (fun p => if p.1 = d then (d, v) else p)
  else
    m ++ [(d, v)]

/-- Line 270: `sorted(day for day, count in contributions_by_day.items() if count > 0)`. -/
def activeDays (m : List (Int × Int)) : List Int :=
  List.insertionSort (fun a b => a ≤ b) ((m.filter (fun p => 0 < p.2)).map Prod.fst)

/-- Line 274: `sum(count for count in contributions_by_day.values() if count > 0)`. -/
def totalContributions (m : List (Int × Int)) : Int :=
  ((m.filter (fun p => 0 < p.2)).map Prod.snd).sum

/-- The loop state of lines 276-303: best-so-far run (`longest_len`,
`longest_start`, `longest_end`) and open run (`run_start`, `prev`). -/
structure ScanState where
  lLen : Int
  lStart : Int
  lEnd : Int
  runStart : Int
  prev : Int
deriving DecidableEq, Repr

/-- Lines 284-296: walk the remaining sorted active days, extending the open
run on a one-day step and closing it (updating the best only under strict
greater-than) on any larger gap. -/
def longestScan (st : ScanState) : List Int → ScanState
  | [] => st
  | day :: rest =>
    if day - st.prev = 1 then
      longestScan { st with prev := day } rest
    else
      if st.lLen < st.prev - st.runStart + 1 then
        longestScan ⟨st.prev - st.runStart + 1, st.runStart, st.prev, day, day⟩ rest
      else
        longestScan { st with runStart := day, prev := day } rest

/-- Lines 298-303: final run check after loop completion, again with a strict
greater-than comparison.  Returns `(longest_len, longest_start, longest_end)`. -/
def finalizeScan (st : ScanState) : Int × Int × Int :=
  if st.lLen < st.prev - st.runStart + 1 then
    (st.prev - st.runStart + 1, st.runStart, st.prev)
  else
    (st.lLen, st.lStart, st.lEnd)

/-- Lines 317-319: `while current_start - 1 in active_set: current_start -= 1`.
The fuel argument bounds the number of iterations; `active.length` steps
always suffice because each step lands on a distinct member of `active`. -/
def extendBack (active : List Int) : Nat → Int → Int
  | 0, d => d
  | fuel + 1, d => if (d - 1) ∈ active then extendBack active fuel (d - 1) else d

/-- Lines 276-330 of `compute_streaks` once the active-day list is known to be
nonempty, with `total` the already-computed total contribution count. -/
def streaksFromActive (a0 : Int) (rest : List Int) (total today : Int) : StreakStats :=
  let fin := finalizeScan (longestScan ⟨1, a0, a0, a0, a0⟩ rest)
  let latest := (a0 :: rest).getLast (List.cons_ne_nil a0 rest)
  if 1 < today - latest then
    ⟨total, 0, fin.1, none, none, some fin.2.1, some fin.2.2⟩
  else
    let cs := extendBack (a0 :: rest) (a0 :: rest).length latest
    ⟨total, latest - cs + 1, fin.1, some cs, some latest, some fin.2.1, some fin.2.2⟩

/-- Lines 266-330: `compute_streaks(contributions_by_day, today)`. -/
def compute_streaks (m : List (Int × Int)) (today : Int) : StreakStats :=
  match activeDays m with
  | [] => ⟨0, 0, 0, none, none, none, none⟩
  | a0 :: rest => streaksFromActive a0 rest (totalContributions m) today

/-- Lines 251-263: `merge_historical_with_recent(historical_days, recent_push_days)`.
`merged = dict(historical_days)` copies the baseline; each overlay day is
then written with `max(merged.get(day, 0), push_count)`. -/
def merge_historical_with_recent (historical_days recent_push_days : List (Int × Int)) :
    List (Int × Int) :=
  recent_push_days.foldl
    (fun merged p => setKey merged p.1 (max (getCount merged p.1) p.2)) historical_days

/-- The Python locals of `merge_historical_with_recent`: the two parameters
and the fresh dict `merged` created by `dict(historical_days)`.  Modelling
them as separate fields records which dict each statement writes to. -/
structure MergeLocals where
  historical_days : List (Int × Int)
  recent_push_days : List (Int × Int)
  merged : List (Int × Int)
deriving DecidableEq, Repr

/-- Lines 251-263 transcribed statement by statement over the local-variable
state: `merged = dict(historical_days)` initialises a fresh copy, and the
loop body writes only to `merged`. -/
def merge_body (historical_days recent_push_days : List (Int × Int)) : MergeLocals :=
  let s0 : MergeLocals := ⟨historical_days, recent_push_days, historical_days⟩
  recent_push_days.foldl
    (fun s p => { s with merged := setKey s.merged p.1 (max (getCount s.merged p.1) p.2) }) s0

/-!
Day Aggregator (`aggregate_push_commits_by_day`, lines 224-248).

An activity record (a GitHub event dict) is modelled by the three pieces the
function reads: `event["type"]`, `len(event["payload"]["commits"])`, and
`event["created_at"]`.  The `created_at` field is `none` when missing or
falsy, `some none` when present but not parseable by
`datetime.fromisoformat` (which then raises `ValueError`), and
`some (some ts)` when it parses to the UTC instant `ts`, modelled in minutes
since the epoch.  The raised `ValueError` is modelled as `Except.error ()`,
which aborts the remaining iterations exactly as an uncaught Python
exception would.
-/

structure Event where
  type : String
  commits : Nat
  created_at : Option (Option Int)
deriving DecidableEq, Repr

/-- Line 245: `timestamp.astimezone(timezone).date()` for the fixed
whole-hour UTC offset `tz` built by `parse_timezone`: shift the UTC instant
by `tz` hours (= `tz * 60` minutes) and take the floor day of 1440 minutes. -/
def localDay (ts tz : Int) : Int :=
  Int.fdiv (ts + tz * 60) 1440

/-- Lines 229-246: the aggregation loop with accumulator `push_counts`;
`tz` is the requested timezone offset in whole hours. -/
def aggAux (tz : Int) (push_counts : List (Int × Int)) :
    List Event → Except Unit (List (Int × Int))
  | [] => .ok push_counts
  | e :: rest =>
    if e.type ≠ "PushEvent" then aggAux tz push_counts rest
    else if e.commits = 0 then aggAux tz push_counts rest
    else
      match e.created_at with
      | none => aggAux tz push_counts rest
      | some none => .error ()
      | some (some ts) =>
        aggAux tz
          (setKey push_counts (localDay ts tz)
            (getCount push_counts (localDay ts tz) + (e.commits : Int))) rest

/-- Lines 224-248: `aggregate_push_commits_by_day(events, timezone)`. -/
def aggregate_push_commits_by_day (events : List Event) (tz : Int) :
    Except Unit (List (Int × Int)) :=
  aggAux tz [] events

/-- A record that makes line 244 raise `ValueError`: a push event with
commits whose `created_at` is present but unparseable. -/
def badEvent (e : Event) : Prop :=
  e.type = "PushEvent" ∧ e.commits ≠ 0 ∧ e.created_at = some none

instance (e : Event) : Decidable (badEvent e) := by
  unfold badEvent
  infer_instance

/-- The contribution of one record to the count of local day `d`. -/
def contribOf (tz d : Int) (e : Event) : Int :=
  if e.type = "PushEvent" ∧ e.commits ≠ 0 then
    match e.created_at with
    | some (some ts) => if localDay ts tz = d then (e.commits : Int) else 0
    | _ => 0
  else 0

/-- A maximal run of the active-day list `s`: every day in `[a, b]` is
active while neither `a - 1` nor `b + 1` is. -/
def isRun (s : List Int) (a b : Int) : Prop :=
  a ≤ b ∧ (∀ x, a ≤ x → x ≤ b → x ∈ s) ∧ (a - 1) ∉ s ∧ (b + 1) ∉ s

/-- Invariant of the longest-run scan of lines 284-296, relating the loop
state `st` to the sorted active-day list `s` when the days of `r` are still
to be processed: the open run `[runStart, prev]` is a left-maximal segment
of `s` ending at the last processed element, and `(lLen, lStart, lEnd)` is
the earliest best among the maximal runs closed so far. -/
structure ScanInv (s : List Int) (st : ScanState) (r : List Int) : Prop where
  decomp : ∃ init, s = init ++ st.prev :: r
  run_le : st.runStart ≤ st.prev
  run_mem : ∀ x, st.runStart ≤ x → x ≤ st.prev → x ∈ s
  run_left : (st.runStart - 1) ∉ s
  best_le : st.lStart ≤ st.lEnd
  best_mem : ∀ x, st.lStart ≤ x → x ≤ st.lEnd → x ∈ s
  best_left : (st.lStart - 1) ∉ s
  best_len : st.lLen = st.lEnd - st.lStart + 1
  best_start_le : st.lStart ≤ st.runStart
  best_end_le : st.lEnd ≤ st.prev
  best_closed : (st.lEnd + 1) ∉ s ∨ (st.lStart = st.runStart ∧ st.lEnd = st.runStart)
  best_best : ∀ a b, isRun s a b → b < st.runStart →
    (b - a + 1 < st.lLen ∨ (b - a + 1 = st.lLen ∧ st.lStart ≤ a))

/-! Basic lookup / update lemmas for the association-list dict model. -/

theorem lookupCM_nil (d : Int) : lookupCM [] d = none := rfl

theorem lookupCM_cons (p : Int × Int) (t : List (Int × Int)) (d : Int) :
    lookupCM (p :: t) d = if p.1 = d then some p.2 else lookupCM t d := rfl

theorem lookupCM_map_update_self (m : List (Int × Int)) (k v : Int)
    (hmem : k ∈ m.map Prod.fst) :
    lookupCM (m.map (fun p => if p.1 = k then (k, v) else p)) k = some v := by
  induction m with
  | nil => simp at hmem
  | cons p t ih =>
    by_cases hp : p.1 = k
    · simp [lookupCM_cons, hp]
    · simp only [List.map_cons, lookupCM_cons, hp, if_neg, if_false]
      simp only [List.map_cons, List.mem_cons] at hmem
      rcases hmem with hmem | hmem
      · exact absurd hmem.symm hp
      · exact ih hmem

theorem lookupCM_map_update_ne (m : List (Int × Int)) (k v d : Int) (hd : d ≠ k) :
    lookupCM (m.map (fun p => if p.1 = k then (k, v) else p)) d = lookupCM m d := by
  induction m with
  | nil => simp
  | cons p t ih =>
    by_cases hp : p.1 = k
    · rw [List.map_cons]
      rw [if_pos hp, lookupCM_cons, lookupCM_cons, if_neg (fun h => hd h.symm),
        if_neg (fun h => hd (hp ▸ h).symm)]
      exact ih
    · rw [List.map_cons, if_neg hp, lookupCM_cons, lookupCM_cons]
      by_cases hpd : p.1 = d
      · rw [if_pos hpd, if_pos hpd]
      · rw [if_neg hpd, if_neg hpd]
        exact ih

theorem lookupCM_append (m₁ m₂ : List (Int × Int)) (d : Int) :
    lookupCM (m₁ ++ m₂) d =
      match lookupCM m₁ d with
      | some v => some v
      | none => lookupCM m₂ d := by
  induction m₁ with
  | nil => simp [lookupCM]
  | cons p t ih =>
    by_cases hp : p.1 = d <;> simp [lookupCM_cons, hp, ih]

theorem lookupCM_eq_none_of_not_mem (m : List (Int × Int)) (k : Int)
    (h : k ∉ m.map Prod.fst) : lookupCM m k = none := by
  induction m with
  | nil => rfl
  | cons p t ih =>
    simp only [List.map_cons, List.mem_cons, not_or] at h
    rw [lookupCM_cons, if_neg (fun hp => h.1 hp.symm)]
    exact ih h.2

theorem lookupCM_setKey_self (m : List (Int × Int)) (k v : Int) :
    lookupCM (setKey m k v) k = some v := by
  unfold setKey
  by_cases hc : k ∈ m.map Prod.fst
  · rw [if_pos hc]
    exact lookupCM_map_update_self m k v hc
  · rw [if_neg hc, lookupCM_append, lookupCM_eq_none_of_not_mem m k hc]
    simp [lookupCM]

theorem lookupCM_setKey_ne (m : List (Int × Int)) (k v d : Int) (hd : d ≠ k) :
    lookupCM (setKey m k v) d = lookupCM m d := by
  unfold setKey
  by_cases hc : k ∈ m.map Prod.fst
  · rw [if_pos hc]
    exact lookupCM_map_update_ne m k v d hd
  · rw [if_neg hc, lookupCM_append]
    have h2 : lookupCM [(k, v)] d = none := by
      rw [show ([(k, v)] : List (Int × Int)) = (k, v) :: [] from rfl, lookupCM_cons,
        if_neg (fun h : k = d => hd h.symm)]
      rfl
    rw [h2]
    cases lookupCM m d <;> rfl

theorem getCount_setKey_self (m : List (Int × Int)) (k v : Int) :
    getCount (setKey m k v) k = v := by
  simp [getCount, lookupCM_setKey_self]

theorem getCount_setKey_ne (m : List (Int × Int)) (k v d : Int) (hd : d ≠ k) :
    getCount (setKey m k v) d = getCount m d := by
  simp [getCount, lookupCM_setKey_ne m k v d hd]

theorem lookupCM_isSome_iff_mem_keys (m : List (Int × Int)) (d : Int) :
    (lookupCM m d).isSome = true ↔ d ∈ m.map Prod.fst := by
  induction m with
  | nil => simp [lookupCM]
  | cons p t ih =>
    by_cases hp : p.1 = d
    · simp [lookupCM_cons, hp]
    · rw [lookupCM_cons, if_neg hp, ih]
      simp only [List.map_cons, List.mem_cons]
      constructor
      · exact Or.inr
      · rintro (h | h)
        · exact absurd h.symm hp
        · exact h

theorem mem_of_lookupCM_eq_some (m : List (Int × Int)) (d v : Int)
    (h : lookupCM m d = some v) : (d, v) ∈ m := by
  induction m with
  | nil => simp [lookupCM] at h
  | cons p t ih =>
    rw [lookupCM_cons] at h
    by_cases hp : p.1 = d
    · rw [if_pos hp, Option.some_inj] at h
      have : p = (d, v) := by
        rw [show p = (p.1, p.2) from rfl, hp, h]
      rw [← this]
      exact List.mem_cons_self p t
    · rw [if_neg hp] at h
      exact List.mem_cons_of_mem p (ih h)

theorem getCount_nonneg (m : List (Int × Int)) (d : Int) (h : ∀ p ∈ m, 0 ≤ p.2) :
    0 ≤ getCount m d := by
  unfold getCount
  cases hl : lookupCM m d with
  | none => simp
  | some v => simpa using h (d, v) (mem_of_lookupCM_eq_some m d v hl)

theorem mem_keys_setKey (m : List (Int × Int)) (k v d : Int) :
    d ∈ (setKey m k v).map Prod.fst ↔ d ∈ m.map Prod.fst ∨ d = k := by
  by_cases hd : d = k
  · subst hd
    have h1 : (lookupCM (setKey m d v) d).isSome = true := by
      rw [lookupCM_setKey_self]; rfl
    rw [lookupCM_isSome_iff_mem_keys] at h1
    simp [h1]
  · rw [← lookupCM_isSome_iff_mem_keys, lookupCM_setKey_ne m k v d hd,
      lookupCM_isSome_iff_mem_keys]
    simp [hd]

/-! Lemmas about the Reconciler `merge_historical_with_recent`. -/

theorem merge_nil (acc : List (Int × Int)) : merge_historical_with_recent acc [] = acc := rfl

theorem merge_cons (acc : List (Int × Int)) (p : Int × Int) (r : List (Int × Int)) :
    merge_historical_with_recent acc (p :: r) =
      merge_historical_with_recent (setKey acc p.1 (max (getCount acc p.1) p.2)) r := rfl

theorem getCount_merge_aux :
    ∀ (r acc : List (Int × Int)), (r.map Prod.fst).Nodup → (∀ d, 0 ≤ getCount acc d) →
      ∀ d, getCount (merge_historical_with_recent acc r) d =
        max (getCount acc d) (getCount r d) := by
  intro r
  induction r with
  | nil =>
    intro acc _ hacc d
    rw [merge_nil]
    show getCount acc d = max (getCount acc d) (getCount [] d)
    rw [show getCount [] d = 0 from rfl, max_eq_left (hacc d)]
  | cons q r ih =>
    intro acc hnd hacc d
    rw [show q = (q.1, q.2) from rfl] at hnd ⊢
    rw [merge_cons]
    simp only [List.map_cons, List.nodup_cons] at hnd
    have hacc' : ∀ d', 0 ≤ getCount (setKey acc q.1 (max (getCount acc q.1) q.2)) d' := by
      intro d'
      by_cases hd' : d' = q.1
      · subst hd'
        rw [getCount_setKey_self]
        exact le_trans (hacc q.1) (le_max_left _ _)
      · rw [getCount_setKey_ne _ _ _ _ hd']
        exact hacc d'
    rw [ih _ hnd.2 hacc']
    by_cases hd : d = q.1
    · subst hd
      rw [getCount_setKey_self]
      have hr : getCount r q.1 = 0 := by
        rw [getCount, lookupCM_eq_none_of_not_mem r q.1 hnd.1]
        rfl
      have hc : getCount ((q.1, q.2) :: r) q.1 = q.2 := by
        rw [getCount, lookupCM_cons, if_pos rfl]
        rfl
      rw [hr, hc, max_eq_left (le_trans (hacc q.1) (le_max_left _ _))]
    · rw [getCount_setKey_ne _ _ _ _ hd]
      have hc : getCount ((q.1, q.2) :: r) d = getCount r d := by
        rw [getCount, lookupCM_cons, if_neg (fun h => hd h.symm)]
        rfl
      rw [hc]

theorem mem_keys_merge_aux :
    ∀ (r acc : List (Int × Int)) (d : Int),
      d ∈ (merge_historical_with_recent acc r).map Prod.fst ↔
        d ∈ acc.map Prod.fst ∨ d ∈ r.map Prod.fst := by
  intro r
  induction r with
  | nil =>
    intro acc d
    rw [merge_nil]
    simp
  | cons q r ih =>
    intro acc d
    rw [merge_cons, ih]
    rw [mem_keys_setKey]
    simp only [List.map_cons, List.mem_cons]
    tauto

theorem lookupCM_of_mem_nodup (m : List (Int × Int)) (k v : Int)
    (hnd : (m.map Prod.fst).Nodup) (hm : (k, v) ∈ m) : lookupCM m k = some v := by
  induction m with
  | nil => simp at hm
  | cons p t ih =>
    simp only [List.map_cons, List.nodup_cons] at hnd
    rcases List.mem_cons.mp hm with hm | hm
    · rw [lookupCM_cons, if_pos (by rw [← hm])]
      rw [← hm]
    · have hpk : p.1 ≠ k := by
        intro h
        exact hnd.1 (h ▸ List.mem_map_of_mem Prod.fst hm)
      rw [lookupCM_cons, if_neg hpk]
      exact ih hnd.2 hm

theorem map_update_eq_self (m : List (Int × Int)) (k v : Int)
    (hnd : (m.map Prod.fst).Nodup) (hm : (k, v) ∈ m) :
    m.map (fun p => if p.1 = k then (k, v) else p) = m := by
  induction m with
  | nil => rfl
  | cons p t ih =>
    simp only [List.map_cons, List.nodup_cons] at hnd
    rcases List.mem_cons.mp hm with hm | hm
    · rw [List.map_cons, if_pos (by rw [← hm]), ← hm]
      congr 1
      have hp1 : p.1 = k := by rw [← hm]
      have hk : k ∉ t.map Prod.fst := by
        rw [← hp1]
        exact hnd.1
      calc t.map (fun p => if p.1 = k then (k, v) else p)
          = t.map id := by
            apply List.map_congr_left
            intro q hq
            have hqk : q.1 ≠ k := by
              intro h
              exact hk (by rw [← h]; exact List.mem_map_of_mem Prod.fst hq)
            rw [if_neg hqk]
            rfl
        _ = t := List.map_id t
    · have hpk : p.1 ≠ k := by
        intro h
        exact hnd.1 (h ▸ List.mem_map_of_mem Prod.fst hm)
      rw [List.map_cons, if_neg hpk, ih hnd.2 hm]

theorem setKey_eq_self (m : List (Int × Int)) (k v : Int)
    (hnd : (m.map Prod.fst).Nodup) (hm : (k, v) ∈ m) : setKey m k v = m := by
  unfold setKey
  rw [if_pos (List.mem_map_of_mem Prod.fst hm), map_update_eq_self m k v hnd hm]

theorem merge_self_aux :
    ∀ (r m : List (Int × Int)), (m.map Prod.fst).Nodup → (∀ p ∈ r, p ∈ m) →
      merge_historical_with_recent m r = m := by
  intro r
  induction r with
  | nil => intro m _ _; rfl
  | cons q r ih =>
    intro m hnd hr
    have hq : (q.1, q.2) ∈ m := by
      rw [show (q.1, q.2) = q from rfl]
      exact hr q (List.mem_cons_self q r)
    have hget : getCount m q.1 = q.2 := by
      rw [getCount, lookupCM_of_mem_nodup m q.1 q.2 hnd hq]
      rfl
    rw [merge_cons, hget, max_self, setKey_eq_self m q.1 q.2 hnd hq]
    exact ih m hnd (fun p hp => hr p (List.mem_cons_of_mem q hp))

theorem merge_body_foldl_aux :
    ∀ (l : List (Int × Int)) (s : MergeLocals),
      l.foldl (fun s p => { s with merged := setKey s.merged p.1 (max (getCount s.merged p.1) p.2) }) s =
        ⟨s.historical_days, s.recent_push_days,
          l.foldl (fun merged p => setKey merged p.1 (max (getCount merged p.1) p.2)) s.merged⟩ := by
  intro l
  induction l with
  | nil => intro s; rfl
  | cons q l ih =>
    intro s
    rw [List.foldl_cons, List.foldl_cons, ih]

/-- C3: for every pair of ContributionMaps (baseline, overlay), the
Reconciler's output has as keys exactly the union of the two inputs' key
sets, and each date's count is the maximum of the baseline's count (0 if
absent) and the overlay's count (0 if absent) — never their sum; in
particular baseline `{Jan 5: 3}` with overlay `{Jan 5: 1, Jan 6: 2}` yields
`{Jan 5: 3, Jan 6: 2}`. -/
theorem claim_C3 :
    (∀ (historical_days recent_push_days : List (Int × Int)),
      (historical_days.map Prod.fst).Nodup → (recent_push_days.map Prod.fst).Nodup →
      (∀ p ∈ historical_days, 0 ≤ p.2) → (∀ p ∈ recent_push_days, 0 ≤ p.2) →
      (∀ d, d ∈ (merge_historical_with_recent historical_days recent_push_days).map Prod.fst ↔
          d ∈ historical_days.map Prod.fst ∨ d ∈ recent_push_days.map Prod.fst) ∧
      (∀ d, getCount (merge_historical_with_recent historical_days recent_push_days) d =
          max (getCount historical_days d) (getCount recent_push_days d))) ∧
    merge_historical_with_recent [(5, 3)] [(5, 1), (6, 2)] = [(5, 3), (6, 2)] := by
  constructor
  · intro hist recent _ hndr hh _
    refine ⟨fun d => mem_keys_merge_aux recent hist d, fun d => ?_⟩
    exact getCount_merge_aux recent hist hndr (fun d' => getCount_nonneg hist d' hh) d
  · decide

/-- Witness for C3 at the spec's own example maps, with every hypothesis
discharged by computation. -/
theorem claim_C3_witness :
    (∀ d : Int, getCount (merge_historical_with_recent [(5, 3)] [(5, 1), (6, 2)]) d =
      max (getCount [(5, 3)] d) (getCount [(5, 1), (6, 2)] d)) :=
  (claim_C3.1 [(5, 3)] [(5, 1), (6, 2)] (by decide) (by decide) (by decide) (by decide)).2

/-- C8: merging a ContributionMap with itself via the max-based Reconciler
returns the map unchanged (idempotence). -/
theorem claim_C8 (m : List (Int × Int)) (hnd : (m.map Prod.fst).Nodup) :
    merge_historical_with_recent m m = m :=
  merge_self_aux m m hnd (fun _ hp => hp)

/-- Witness for C8 at a concrete two-day map. -/
theorem claim_C8_witness :
    merge_historical_with_recent [(1, 2), (3, 4)] [(1, 2), (3, 4)] = [(1, 2), (3, 4)] :=
  claim_C8 [(1, 2), (3, 4)] (by decide)

/-- C9: the Reconciler produces a fresh output map and leaves both input
maps unchanged: running the transcribed body of
`merge_historical_with_recent` ends with the `historical_days` and
`recent_push_days` locals still equal to the inputs, while `merged` holds
the reconciled result. -/
theorem claim_C9 (historical_days recent_push_days : List (Int × Int)) :
    (merge_body historical_days recent_push_days).historical_days = historical_days ∧
    (merge_body historical_days recent_push_days).recent_push_days = recent_push_days ∧
    (merge_body historical_days recent_push_days).merged =
      merge_historical_with_recent historical_days recent_push_days := by
  unfold merge_body
  rw [merge_body_foldl_aux]
  exact ⟨rfl, rfl, rfl⟩

theorem aggAux_cons_eq (tz : Int) (acc : List (Int × Int)) (e : Event) (rest : List Event) :
    aggAux tz acc (e :: rest) =
      if e.type ≠ "PushEvent" then aggAux tz acc rest
      else if e.commits = 0 then aggAux tz acc rest
      else
        match e.created_at with
        | none => aggAux tz acc rest
        | some none => .error ()
        | some (some ts) =>
          aggAux tz
            (setKey acc (localDay ts tz)
              (getCount acc (localDay ts tz) + (e.commits : Int))) rest := rfl

theorem aggAux_cons_not_push (tz : Int) (acc : List (Int × Int)) (e : Event)
    (rest : List Event) (ht : e.type ≠ "PushEvent") :
    aggAux tz acc (e :: rest) = aggAux tz acc rest := by
  rw [aggAux_cons_eq, if_pos ht]

theorem aggAux_cons_zero (tz : Int) (acc : List (Int × Int)) (e : Event)
    (rest : List Event) (ht : e.type = "PushEvent") (hc : e.commits = 0) :
    aggAux tz acc (e :: rest) = aggAux tz acc rest := by
  rw [aggAux_cons_eq, if_neg (by simpa using ht), if_pos hc]

theorem aggAux_cons_missing (tz : Int) (acc : List (Int × Int)) (e : Event)
    (rest : List Event) (ht : e.type = "PushEvent") (hc : e.commits ≠ 0)
    (hca : e.created_at = none) :
    aggAux tz acc (e :: rest) = aggAux tz acc rest := by
  rw [aggAux_cons_eq, if_neg (by simpa using ht), if_neg hc, hca]

theorem aggAux_cons_bad (tz : Int) (acc : List (Int × Int)) (e : Event)
    (rest : List Event) (ht : e.type = "PushEvent") (hc : e.commits ≠ 0)
    (hca : e.created_at = some none) :
    aggAux tz acc (e :: rest) = .error () := by
  rw [aggAux_cons_eq, if_neg (by simpa using ht), if_neg hc, hca]

theorem aggAux_cons_push (tz : Int) (acc : List (Int × Int)) (e : Event)
    (rest : List Event) (ts : Int) (ht : e.type = "PushEvent") (hc : e.commits ≠ 0)
    (hca : e.created_at = some (some ts)) :
    aggAux tz acc (e :: rest) =
      aggAux tz
        (setKey acc (localDay ts tz)
          (getCount acc (localDay ts tz) + (e.commits : Int))) rest := by
  rw [aggAux_cons_eq, if_neg (by simpa using ht), if_neg hc, hca]

theorem aggAux_error_iff (tz : Int) :
    ∀ (events : List Event) (acc : List (Int × Int)),
      aggAux tz acc events = .error () ↔ ∃ e ∈ events, badEvent e := by
  intro events
  induction events with
  | nil =>
    intro acc
    simp [aggAux]
  | cons e rest ih =>
    intro acc
    by_cases ht : e.type = "PushEvent"
    · by_cases hc : e.commits = 0
      · rw [aggAux_cons_zero tz acc e rest ht hc, ih]
        simp [badEvent, hc]
      · cases hca : e.created_at with
        | none =>
          rw [aggAux_cons_missing tz acc e rest ht hc hca, ih]
          simp [badEvent, hca]
        | some ots =>
          cases ots with
          | none =>
            rw [aggAux_cons_bad tz acc e rest ht hc hca]
            constructor
            · intro _
              exact ⟨e, List.mem_cons_self e rest, ht, hc, hca⟩
            · intro _
              rfl
          | some ts =>
            rw [aggAux_cons_push tz acc e rest ts ht hc hca, ih]
            simp [badEvent, hca]
    · rw [aggAux_cons_not_push tz acc e rest ht, ih]
      simp [badEvent, ht]

theorem aggAux_ok_of_no_bad (tz : Int) (events : List Event) (acc : List (Int × Int))
    (h : ∀ e ∈ events, ¬ badEvent e) : ∃ m, aggAux tz acc events = .ok m := by
  cases hr : aggAux tz acc events with
  | ok m => exact ⟨m, rfl⟩
  | error u =>
    cases u
    rw [aggAux_error_iff tz events acc] at hr
    obtain ⟨e, he, hb⟩ := hr
    exact absurd hb (h e he)

theorem aggAux_skip_missing (tz : Int) :
    ∀ (events : List Event) (acc : List (Int × Int)),
      aggAux tz acc (events.filter (fun e => e.created_at.isSome)) =
        aggAux tz acc events := by
  intro events
  induction events with
  | nil => intro acc; rfl
  | cons e rest ih =>
    intro acc
    cases hca : e.created_at with
    | none =>
      rw [show (e :: rest).filter (fun e => e.created_at.isSome) =
          rest.filter (fun e => e.created_at.isSome) by
        rw [List.filter_cons, hca]; rfl]
      rw [ih]
      by_cases ht : e.type = "PushEvent"
      · by_cases hc : e.commits = 0
        · rw [aggAux_cons_zero tz acc e rest ht hc]
        · rw [aggAux_cons_missing tz acc e rest ht hc hca]
      · rw [aggAux_cons_not_push tz acc e rest ht]
    | some ots =>
      rw [show (e :: rest).filter (fun e => e.created_at.isSome) =
          e :: rest.filter (fun e => e.created_at.isSome) by
        rw [List.filter_cons, hca]; rfl]
      by_cases ht : e.type = "PushEvent"
      · by_cases hc : e.commits = 0
        · rw [aggAux_cons_zero tz acc e _ ht hc, aggAux_cons_zero tz acc e rest ht hc]
          exact ih acc
        · cases ots with
          | none =>
            rw [aggAux_cons_bad tz acc e _ ht hc hca, aggAux_cons_bad tz acc e rest ht hc hca]
          | some ts =>
            rw [aggAux_cons_push tz acc e _ ts ht hc hca,
              aggAux_cons_push tz acc e rest ts ht hc hca]
            exact ih _
      · rw [aggAux_cons_not_push tz acc e _ ht, aggAux_cons_not_push tz acc e rest ht]
        exact ih acc

theorem contribOf_skip_type (tz d : Int) (e : Event) (ht : e.type ≠ "PushEvent") :
    contribOf tz d e = 0 := by
  unfold contribOf
  rw [if_neg (fun h => ht h.1)]

theorem contribOf_zero (tz d : Int) (e : Event) (hc : e.commits = 0) :
    contribOf tz d e = 0 := by
  unfold contribOf
  rw [if_neg (fun h => h.2 hc)]

theorem contribOf_missing (tz d : Int) (e : Event) (hca : e.created_at = none) :
    contribOf tz d e = 0 := by
  unfold contribOf
  rw [hca]
  by_cases h : e.type = "PushEvent" ∧ e.commits ≠ 0
  · rw [if_pos h]
  · rw [if_neg h]

theorem contribOf_push (tz d : Int) (e : Event) (ts : Int) (ht : e.type = "PushEvent")
    (hc : e.commits ≠ 0) (hca : e.created_at = some (some ts)) :
    contribOf tz d e = if localDay ts tz = d then (e.commits : Int) else 0 := by
  unfold contribOf
  rw [hca, if_pos ⟨ht, hc⟩]

theorem getCount_aggAux (tz : Int) :
    ∀ (events : List Event) (acc m : List (Int × Int)),
      aggAux tz acc events = .ok m →
      ∀ d, getCount m d = getCount acc d + ((events.map (contribOf tz d)).sum) := by
  intro events
  induction events with
  | nil =>
    intro acc m hm d
    have : acc = m := by
      have := hm
      simp [aggAux] at this
      exact this
    rw [← this]
    simp
  | cons e rest ih =>
    intro acc m hm d
    by_cases ht : e.type = "PushEvent"
    · by_cases hc : e.commits = 0
      · rw [aggAux_cons_zero tz acc e rest ht hc] at hm
        rw [List.map_cons, List.sum_cons, contribOf_zero tz d e hc, ih acc m hm d]
        ring
      · cases hca : e.created_at with
        | none =>
          rw [aggAux_cons_missing tz acc e rest ht hc hca] at hm
          rw [List.map_cons, List.sum_cons, contribOf_missing tz d e hca, ih acc m hm d]
          ring
        | some ots =>
          cases ots with
          | none =>
            rw [aggAux_cons_bad tz acc e rest ht hc hca] at hm
            exact absurd hm (by simp)
          | some ts =>
            rw [aggAux_cons_push tz acc e rest ts ht hc hca] at hm
            rw [List.map_cons, List.sum_cons, contribOf_push tz d e ts ht hc hca,
              ih _ m hm d]
            by_cases hd : localDay ts tz = d
            · rw [if_pos hd, hd, getCount_setKey_self]
              ring
            · rw [if_neg hd, getCount_setKey_ne _ _ _ _ (fun h => hd h.symm)]
              ring
    · rw [aggAux_cons_not_push tz acc e rest ht] at hm
      rw [List.map_cons, List.sum_cons, contribOf_skip_type tz d e ht, ih acc m hm d]
      ring

theorem mem_setKey_cases (m : List (Int × Int)) (k v : Int) (p : Int × Int)
    (hp : p ∈ setKey m k v) : p ∈ m ∨ p = (k, v) := by
  unfold setKey at hp
  by_cases hc : k ∈ m.map Prod.fst
  · rw [if_pos hc] at hp
    obtain ⟨q, hq, hfq⟩ := List.mem_map.mp hp
    by_cases hqk : q.1 = k
    · rw [if_pos hqk] at hfq
      exact Or.inr hfq.symm
    · rw [if_neg hqk] at hfq
      exact Or.inl (hfq ▸ hq)
  · rw [if_neg hc] at hp
    rcases List.mem_append.mp hp with hp | hp
    · exact Or.inl hp
    · simp only [List.mem_singleton] at hp
      exact Or.inr hp

theorem aggAux_pos (tz : Int) :
    ∀ (events : List Event) (acc m : List (Int × Int)),
      (∀ p ∈ acc, 0 < p.2) → aggAux tz acc events = .ok m → ∀ p ∈ m, 0 < p.2 := by
  intro events
  induction events with
  | nil =>
    intro acc m hacc hm
    have : acc = m := by
      have := hm
      simp [aggAux] at this
      exact this
    exact this ▸ hacc
  | cons e rest ih =>
    intro acc m hacc hm
    by_cases ht : e.type = "PushEvent"
    · by_cases hc : e.commits = 0
      · rw [aggAux_cons_zero tz acc e rest ht hc] at hm
        exact ih acc m hacc hm
      · cases hca : e.created_at with
        | none =>
          rw [aggAux_cons_missing tz acc e rest ht hc hca] at hm
          exact ih acc m hacc hm
        | some ots =>
          cases ots with
          | none =>
            rw [aggAux_cons_bad tz acc e rest ht hc hca] at hm
            exact absurd hm (by simp)
          | some ts =>
            rw [aggAux_cons_push tz acc e rest ts ht hc hca] at hm
            refine ih _ m ?_ hm
            intro p hp
            rcases mem_setKey_cases _ _ _ p hp with hp | hp
            · exact hacc p hp
            · rw [hp]
              have h1 : 0 ≤ getCount acc (localDay ts tz) :=
                getCount_nonneg acc _ (fun q hq => le_of_lt (hacc q hq))
              have h2 : (0 : Int) < (e.commits : Int) := by
                have := Nat.pos_of_ne_zero hc
                exact_mod_cast this
              simpa using add_pos_of_nonneg_of_pos h1 h2
    · rw [aggAux_cons_not_push tz acc e rest ht] at hm
      exact ih acc m hacc hm

theorem lookupCM_eq_of_pos (m : List (Int × Int)) (d : Int) (hpos : ∀ p ∈ m, 0 < p.2) :
    lookupCM m d = if getCount m d = 0 then none else some (getCount m d) := by
  cases hl : lookupCM m d with
  | none =>
    rw [show getCount m d = 0 by rw [getCount, hl]; rfl]
    simp
  | some v =>
    have hv : 0 < v := hpos (d, v) (mem_of_lookupCM_eq_some m d v hl)
    have hg : getCount m d = v := by rw [getCount, hl]; rfl
    rw [hg, if_neg (by omega)]

theorem lookupCM_aggregate (events : List Event) (tz : Int) (m : List (Int × Int))
    (hm : aggregate_push_commits_by_day events tz = .ok m) (d : Int) :
    lookupCM m d =
      if ((events.map (contribOf tz d)).sum) = 0 then none
      else some ((events.map (contribOf tz d)).sum) := by
  have hsum : getCount m d = (events.map (contribOf tz d)).sum := by
    have := getCount_aggAux tz events [] m hm d
    simpa [getCount, lookupCM] using this
  have hpos : ∀ p ∈ m, 0 < p.2 :=
    aggAux_pos tz events [] m (by simp) hm
  rw [lookupCM_eq_of_pos m d hpos, hsum]

/-- C5 counterexample: a single push record whose timestamp is present but
unparseable makes the whole aggregation raise (abort), instead of being
skipped as the claim states. -/
theorem claim_C5_counterexample :
    aggregate_push_commits_by_day [⟨"PushEvent", 1, some none⟩] 0 = .error () := by
  rfl

/-- C5 (amended): records with missing timestamps are skipped (removing them
does not change the result), and the aggregation returns a ContributionMap
whenever no contributing record has a present-but-unparseable timestamp; a
contributing record with an unparseable timestamp instead raises an error
that aborts the whole run. -/
theorem claim_C5_amended :
    (∀ (events : List Event) (tz : Int),
      aggregate_push_commits_by_day (events.filter (fun e => e.created_at.isSome)) tz =
        aggregate_push_commits_by_day events tz) ∧
    (∀ (events : List Event) (tz : Int),
      (∀ e ∈ events, e.type = "PushEvent" → e.commits ≠ 0 → e.created_at ≠ some none) →
      ∃ m, aggregate_push_commits_by_day events tz = .ok m) := by
  constructor
  · intro events tz
    exact aggAux_skip_missing tz events []
  · intro events tz h
    refine aggAux_ok_of_no_bad tz events [] ?_
    intro e he hb
    exact h e he hb.1 hb.2.1 hb.2.2

/-- Witness for C5 (amended) on a concrete record list containing a push
record and a record with a missing timestamp. -/
theorem claim_C5_amended_witness :
    ∃ m, aggregate_push_commits_by_day
      [⟨"PushEvent", 2, some (some 100)⟩, ⟨"PushEvent", 1, none⟩] 0 = .ok m :=
  claim_C5_amended.2 [⟨"PushEvent", 2, some (some 100)⟩, ⟨"PushEvent", 1, none⟩] 0
    (by decide)

/-- C7: aggregating a permutation of the same records yields the same
ContributionMap — the two runs either both abort on an unparseable
timestamp, or both succeed with maps agreeing on every day's lookup. -/
theorem claim_C7 (events₁ events₂ : List Event) (tz : Int) (hp : events₁.Perm events₂) :
    (aggregate_push_commits_by_day events₁ tz = .error () ∧
      aggregate_push_commits_by_day events₂ tz = .error ()) ∨
    (∃ m₁ m₂, aggregate_push_commits_by_day events₁ tz = .ok m₁ ∧
      aggregate_push_commits_by_day events₂ tz = .ok m₂ ∧
      ∀ d, lookupCM m₁ d = lookupCM m₂ d) := by
  by_cases hbad : ∃ e ∈ events₁, badEvent e
  · left
    obtain ⟨e, he, hb⟩ := hbad
    constructor
    · exact (aggAux_error_iff tz events₁ []).mpr ⟨e, he, hb⟩
    · exact (aggAux_error_iff tz events₂ []).mpr ⟨e, hp.subset he, hb⟩
  · right
    obtain ⟨m₁, hm₁⟩ := aggAux_ok_of_no_bad tz events₁ []
      (fun e he hb => hbad ⟨e, he, hb⟩)
    obtain ⟨m₂, hm₂⟩ := aggAux_ok_of_no_bad tz events₂ []
      (fun e he hb => hbad ⟨e, hp.mem_iff.mpr he, hb⟩)
    refine ⟨m₁, m₂, hm₁, hm₂, fun d => ?_⟩
    rw [lookupCM_aggregate events₁ tz m₁ hm₁ d, lookupCM_aggregate events₂ tz m₂ hm₂ d,
      (hp.map (contribOf tz d)).sum_eq]

/-- Witness for C7 on a concrete two-record permutation. -/
theorem claim_C7_witness :
    (aggregate_push_commits_by_day
        [⟨"PushEvent", 1, some (some 0)⟩, ⟨"PushEvent", 2, some (some 2000)⟩] 0 = .error () ∧
      aggregate_push_commits_by_day
        [⟨"PushEvent", 2, some (some 2000)⟩, ⟨"PushEvent", 1, some (some 0)⟩] 0 = .error ()) ∨
    (∃ m₁ m₂, aggregate_push_commits_by_day
        [⟨"PushEvent", 1, some (some 0)⟩, ⟨"PushEvent", 2, some (some 2000)⟩] 0 = .ok m₁ ∧
      aggregate_push_commits_by_day
        [⟨"PushEvent", 2, some (some 2000)⟩, ⟨"PushEvent", 1, some (some 0)⟩] 0 = .ok m₂ ∧
      ∀ d, lookupCM m₁ d = lookupCM m₂ d) :=
  claim_C7 [⟨"PushEvent", 1, some (some 0)⟩, ⟨"PushEvent", 2, some (some 2000)⟩]
    [⟨"PushEvent", 2, some (some 2000)⟩, ⟨"PushEvent", 1, some (some 0)⟩] 0
    (List.Perm.swap (⟨"PushEvent", 2, some (some 2000)⟩ : Event)
      (⟨"PushEvent", 1, some (some 0)⟩ : Event) [])

/-! Facts about strictly sorted active-day lists. -/

theorem sorted_decomp_gt (s init r : List Int) (p : Int)
    (hs : s.Sorted (· < ·)) (hd : s = init ++ p :: r) : ∀ x ∈ r, p < x := by
  rw [hd] at hs
  rcases List.pairwise_append.mp hs with ⟨_, h2, _⟩
  exact (List.pairwise_cons.mp h2).1

theorem sorted_decomp_lt_init (s init r : List Int) (p : Int)
    (hs : s.Sorted (· < ·)) (hd : s = init ++ p :: r) : ∀ x ∈ init, x < p := by
  rw [hd] at hs
  rcases List.pairwise_append.mp hs with ⟨_, _, h3⟩
  exact fun x hx => h3 x hx p (List.mem_cons_self p r)

theorem sorted_gap (s init r : List Int) (p q : Int)
    (hs : s.Sorted (· < ·)) (hd : s = init ++ p :: q :: r) :
    ∀ x ∈ s, p < x → x < q → False := by
  intro x hx h1 h2
  rw [hd] at hx
  rcases List.mem_append.mp hx with hx | hx
  · exact absurd (sorted_decomp_lt_init s init (q :: r) p hs hd x hx) (by omega)
  · rcases List.mem_cons.mp hx with hx | hx
    · omega
    · rcases List.mem_cons.mp hx with hx | hx
      · omega
      · have := sorted_decomp_gt s (init ++ [p]) r q hs (by rw [hd]; simp)
        exact absurd (this x hx) (by omega)

theorem sorted_max_of_concat (s init : List Int) (p : Int)
    (hs : s.Sorted (· < ·)) (hd : s = init ++ [p]) : ∀ x ∈ s, x ≤ p := by
  intro x hx
  rw [hd] at hx
  rcases List.mem_append.mp hx with hx | hx
  · exact le_of_lt (sorted_decomp_lt_init s init [] p hs hd x hx)
  · rcases List.mem_cons.mp hx with hx | hx
    · omega
    · simp at hx

theorem sorted_min_head (a0 : Int) (rest : List Int)
    (hs : (a0 :: rest).Sorted (· < ·)) : ∀ x ∈ a0 :: rest, a0 ≤ x := by
  intro x hx
  rcases List.mem_cons.mp hx with hx | hx
  · omega
  · exact le_of_lt ((List.sorted_cons.mp hs).1 x hx)

/-! The backward walk of lines 317-319: specification of `extendBack`. -/

theorem extendBack_succ (s : List Int) (n : Nat) (d : Int) :
    extendBack s (n + 1) d = if (d - 1) ∈ s then extendBack s n (d - 1) else d := rfl

theorem extendBack_aux (s : List Int) :
    ∀ (n : Nat) (d : Int), d ∈ s →
      (∃ j : Nat, 1 ≤ j ∧ j ≤ n ∧ (d - (j : Int)) ∉ s) →
      extendBack s n d ≤ d ∧
      (∀ x, extendBack s n d ≤ x → x ≤ d → x ∈ s) ∧
      (extendBack s n d - 1) ∉ s := by
  intro n
  induction n with
  | zero =>
    intro d _ hex
    obtain ⟨j, h1, h2, _⟩ := hex
    omega
  | succ n ih =>
    intro d hd hex
    by_cases hmem : (d - 1) ∈ s
    · rw [extendBack_succ, if_pos hmem]
      obtain ⟨j, h1, h2, h3⟩ := hex
      have hj2 : 2 ≤ j := by
        by_contra hlt
        push_neg at hlt
        have hj1 : j = 1 := by omega
        rw [hj1] at h3
        simp only [Nat.cast_one] at h3
        exact h3 hmem
      have hex' : ∃ j' : Nat, 1 ≤ j' ∧ j' ≤ n ∧ ((d - 1) - (j' : Int)) ∉ s := by
        refine ⟨j - 1, by omega, by omega, ?_⟩
        have hcast : ((j - 1 : Nat) : Int) = (j : Int) - 1 := by
          omega
        rw [hcast, show d - 1 - ((j : Int) - 1) = d - (j : Int) by ring]
        exact h3
      obtain ⟨hle, hint, hleft⟩ := ih (d - 1) hmem hex'
      refine ⟨by omega, ?_, hleft⟩
      intro x hx1 hx2
      rcases eq_or_lt_of_le hx2 with hx | hx
      · rw [hx]; exact hd
      · exact hint x hx1 (by omega)
    · rw [extendBack_succ, if_neg hmem]
      refine ⟨le_refl d, ?_, hmem⟩
      intro x hx1 hx2
      rw [show x = d by omega]
      exact hd

theorem extendBack_fuel (s : List Int) (d : Int) (hd : d ∈ s) :
    ∃ j : Nat, 1 ≤ j ∧ j ≤ s.length ∧ (d - (j : Int)) ∉ s := by
  by_contra hcon
  push_neg at hcon
  have hall : ∀ j : Nat, j ≤ s.length → (d - (j : Int)) ∈ s := by
    intro j hj
    rcases Nat.eq_zero_or_pos j with hj0 | hj0
    · subst hj0
      simpa using hd
    · exact hcon j hj0 hj
  have hinj : Function.Injective (fun j : Nat => d - (j : Int)) := by
    intro a b hab
    simp only at hab
    omega
  have hndl : ((List.range (s.length + 1)).map (fun j : Nat => d - (j : Int))).Nodup :=
    List.Nodup.map hinj (List.nodup_range _)
  have hsub : (List.range (s.length + 1)).map (fun j : Nat => d - (j : Int)) ⊆ s := by
    intro x hx
    obtain ⟨j, hj, hjx⟩ := List.mem_map.mp hx
    rw [← hjx]
    exact hall j (by simpa [Nat.lt_succ_iff] using hj)
  have := (List.subperm_of_subset hndl hsub).length_le
  rw [List.length_map, List.length_range] at this
  omega

theorem extendBack_spec (s : List Int) (d : Int) (hd : d ∈ s) :
    extendBack s s.length d ≤ d ∧
    (∀ x, extendBack s s.length d ≤ x → x ≤ d → x ∈ s) ∧
    (extendBack s s.length d - 1) ∉ s :=
  extendBack_aux s s.length d hd (extendBack_fuel s d hd)

/-! The longest-run scan: equations, run uniqueness, invariant preservation. -/

theorem longestScan_nil (st : ScanState) : longestScan st [] = st := rfl

theorem longestScan_cons (st : ScanState) (day : Int) (rest : List Int) :
    longestScan st (day :: rest) =
      if day - st.prev = 1 then
        longestScan { st with prev := day } rest
      else
        if st.lLen < st.prev - st.runStart + 1 then
          longestScan ⟨st.prev - st.runStart + 1, st.runStart, st.prev, day, day⟩ rest
        else
          longestScan { st with runStart := day, prev := day } rest := rfl

theorem isRun_unique (s : List Int) (runStart prev : Int) (hrp : runStart ≤ prev)
    (hint : ∀ x, runStart ≤ x → x ≤ prev → x ∈ s) (hleft : (runStart - 1) ∉ s)
    (a b : Int) (hab : isRun s a b) (hb1 : runStart ≤ b) (hb2 : b ≤ prev) :
    a = runStart ∧ b = prev := by
  obtain ⟨hab1, hab2, hab3, hab4⟩ := hab
  have hbp : b = prev := by
    by_contra hne
    have hblt : b < prev := by omega
    exact hab4 (hint (b + 1) (by omega) (by omega))
  refine ⟨?_, hbp⟩
  by_contra hne
  rcases lt_or_gt_of_ne hne with hlt | hgt
  · exact hleft (hab2 (runStart - 1) (by omega) (by omega))
  · exact hab3 (hint (a - 1) (by omega) (by omega))

theorem scanInv_init (s : List Int) (hs : s.Sorted (· < ·)) (a0 : Int) (rest : List Int)
    (h : s = a0 :: rest) : ScanInv s ⟨1, a0, a0, a0, a0⟩ rest := by
  have ha0 : a0 ∈ s := by rw [h]; exact List.mem_cons_self a0 rest
  have hmin : ∀ x ∈ s, a0 ≤ x := by
    intro x hx
    exact sorted_min_head a0 rest (by rw [← h]; exact hs) x (by rw [← h]; exact hx)
  refine ⟨⟨[], by simpa using h⟩, le_refl a0, ?_, ?_, le_refl a0, ?_, ?_,
    by show (1 : Int) = a0 - a0 + 1; omega,
    le_refl a0, le_refl a0, Or.inr ⟨rfl, rfl⟩, ?_⟩
  · intro x h1 h2
    have h1' : a0 ≤ x := h1
    have h2' : x ≤ a0 := h2
    rw [show x = a0 by omega]
    exact ha0
  · show (a0 - 1) ∉ s
    intro hc
    have := hmin _ hc
    omega
  · intro x h1 h2
    have h1' : a0 ≤ x := h1
    have h2' : x ≤ a0 := h2
    rw [show x = a0 by omega]
    exact ha0
  · show (a0 - 1) ∉ s
    intro hc
    have := hmin _ hc
    omega
  · intro a b hab hb
    have hb' : b < a0 := hb
    have hbmem : b ∈ s := hab.2.1 b hab.1 (le_refl b)
    have := hmin b hbmem
    omega

theorem longestScan_inv (s : List Int) (hs : s.Sorted (· < ·)) :
    ∀ (r : List Int) (st : ScanState), ScanInv s st r → ScanInv s (longestScan st r) [] := by
  intro r
  induction r with
  | nil =>
    intro st inv
    rw [longestScan_nil]
    exact inv
  | cons day r' ih =>
    intro st inv
    obtain ⟨init, hinit⟩ := inv.decomp
    have hday_mem : day ∈ s := by
      rw [hinit]
      simp
    have hday_gt : st.prev < day :=
      sorted_decomp_gt s init (day :: r') st.prev hs hinit day (List.mem_cons_self day r')
    have hdecomp' : s = (init ++ [st.prev]) ++ day :: r' := by
      rw [hinit]
      simp
    rw [longestScan_cons]
    by_cases h1 : day - st.prev = 1
    · rw [if_pos h1]
      apply ih
      refine ⟨⟨init ++ [st.prev], hdecomp'⟩, ?_, ?_, inv.run_left, inv.best_le,
        inv.best_mem, inv.best_left, inv.best_len, inv.best_start_le, ?_,
        ?_, ?_⟩
      · show st.runStart ≤ day
        have := inv.run_le
        omega
      · intro x hx1 hx2
        have hx1' : st.runStart ≤ x := hx1
        have hx2' : x ≤ day := hx2
        by_cases hx : x ≤ st.prev
        · exact inv.run_mem x hx1' hx
        · rw [show x = day by omega]
          exact hday_mem
      · show st.lEnd ≤ day
        have := inv.best_end_le
        omega
      · exact inv.best_closed
      · exact inv.best_best
    · rw [if_neg h1]
      have hday2 : st.prev + 2 ≤ day := by omega
      have hgap : ∀ x ∈ s, st.prev < x → x < day → False :=
        sorted_gap s init r' st.prev day hs hinit
      have hprev1 : (st.prev + 1) ∉ s := fun hc => hgap _ hc (by omega) (by omega)
      have hday1 : (day - 1) ∉ s := fun hc => hgap _ hc (by omega) (by omega)
      have huniq : ∀ a b, isRun s a b → st.runStart ≤ b → b < day →
          a = st.runStart ∧ b = st.prev := by
        intro a b hab hb1 hb2
        have hb_le : b ≤ st.prev := by
          by_contra hgt
          push_neg at hgt
          have hbmem : b ∈ s := hab.2.1 b hab.1 (le_refl b)
          exact hgap b hbmem (by omega) (by omega)
        exact isRun_unique s st.runStart st.prev inv.run_le inv.run_mem inv.run_left
          a b hab hb1 hb_le
      by_cases h2 : st.lLen < st.prev - st.runStart + 1
      · rw [if_pos h2]
        apply ih
        refine ⟨⟨init ++ [st.prev], hdecomp'⟩, le_refl day, ?_, hday1, inv.run_le,
          inv.run_mem, inv.run_left, rfl, ?_, ?_, Or.inl hprev1, ?_⟩
        · intro x hx1 hx2
          have h1' : (day : Int) ≤ x := hx1
          have h2' : x ≤ day := hx2
          rw [show x = day by omega]
          exact hday_mem
        · show st.runStart ≤ day
          have := inv.run_le
          omega
        · show st.prev ≤ day
          omega
        · intro a b hab hb
          have hb2 : b < day := hb
          by_cases hbr : b < st.runStart
          · rcases inv.best_best a b hab hbr with hlt | ⟨heq, _⟩
            · left
              show b - a + 1 < st.prev - st.runStart + 1
              omega
            · left
              show b - a + 1 < st.prev - st.runStart + 1
              omega
          · push_neg at hbr
            obtain ⟨ha, hb'⟩ := huniq a b hab hbr hb2
            right
            constructor
            · show b - a + 1 = st.prev - st.runStart + 1
              omega
            · show st.runStart ≤ a
              omega
      · rw [if_neg h2]
        apply ih
        refine ⟨⟨init ++ [st.prev], hdecomp'⟩, le_refl day, ?_, hday1, inv.best_le,
          inv.best_mem, inv.best_left, inv.best_len, ?_, ?_, ?_, ?_⟩
        · intro x hx1 hx2
          have h1' : (day : Int) ≤ x := hx1
          have h2' : x ≤ day := hx2
          rw [show x = day by omega]
          exact hday_mem
        · show st.lStart ≤ day
          have h3 := inv.best_start_le
          have h4 := inv.run_le
          omega
        · show st.lEnd ≤ day
          have h3 := inv.best_end_le
          omega
        · rcases inv.best_closed with hc | ⟨hc1, hc2⟩
          · exact Or.inl hc
          · left
            have hlen : st.lLen = 1 := by
              have h3 := inv.best_len
              omega
            have hps : st.prev = st.runStart := by
              have h4 := inv.run_le
              omega
            show (st.lEnd + 1) ∉ s
            rw [hc2, ← hps]
            exact hprev1
        · intro a b hab hb
          have hb2 : b < day := hb
          by_cases hbr : b < st.runStart
          · exact inv.best_best a b hab hbr
          · push_neg at hbr
            obtain ⟨ha, hb'⟩ := huniq a b hab hbr hb2
            have hlen : b - a + 1 = st.prev - st.runStart + 1 := by omega
            rcases eq_or_lt_of_le (show b - a + 1 ≤ st.lLen by omega) with heq | hlt
            · right
              refine ⟨heq, ?_⟩
              show st.lStart ≤ a
              have h3 := inv.best_start_le
              omega
            · left
              exact hlt

theorem finalizeScan_spec (s : List Int) (hs : s.Sorted (· < ·)) (st : ScanState)
    (inv : ScanInv s st []) :
    isRun s (finalizeScan st).2.1 (finalizeScan st).2.2 ∧
    (finalizeScan st).1 = (finalizeScan st).2.2 - (finalizeScan st).2.1 + 1 ∧
    1 ≤ (finalizeScan st).1 ∧
    (∀ a b, isRun s a b →
      (b - a + 1 < (finalizeScan st).1 ∨
        (b - a + 1 = (finalizeScan st).1 ∧ (finalizeScan st).2.1 ≤ a))) ∧
    st.prev ∈ s ∧ (∀ x ∈ s, x ≤ st.prev) := by
  obtain ⟨init, hinit⟩ := inv.decomp
  have hprev_mem : st.prev ∈ s := by
    rw [hinit]
    simp
  have hmax : ∀ x ∈ s, x ≤ st.prev := sorted_max_of_concat s init st.prev hs hinit
  have hprev1 : (st.prev + 1) ∉ s := by
    intro hc
    have := hmax _ hc
    omega
  have huniq : ∀ a b, isRun s a b → st.runStart ≤ b → a = st.runStart ∧ b = st.prev := by
    intro a b hab hb1
    have hb2 : b ≤ st.prev := hmax b (hab.2.1 b hab.1 (le_refl b))
    exact isRun_unique s st.runStart st.prev inv.run_le inv.run_mem inv.run_left
      a b hab hb1 hb2
  unfold finalizeScan
  by_cases h2 : st.lLen < st.prev - st.runStart + 1
  · rw [if_pos h2]
    refine ⟨⟨inv.run_le, inv.run_mem, inv.run_left, hprev1⟩, rfl, ?_, ?_, hprev_mem, hmax⟩
    · show 1 ≤ st.prev - st.runStart + 1
      have := inv.run_le
      omega
    · intro a b hab
      by_cases hbr : b < st.runStart
      · rcases inv.best_best a b hab hbr with hlt | ⟨heq, _⟩
        · left
          show b - a + 1 < st.prev - st.runStart + 1
          omega
        · left
          show b - a + 1 < st.prev - st.runStart + 1
          omega
      · push_neg at hbr
        obtain ⟨ha, hb⟩ := huniq a b hab hbr
        right
        refine ⟨?_, ?_⟩
        · show b - a + 1 = st.prev - st.runStart + 1
          omega
        · show st.runStart ≤ a
          omega
  · rw [if_neg h2]
    have hclosed : (st.lEnd + 1) ∉ s := by
      rcases inv.best_closed with hc | ⟨hc1, hc2⟩
      · exact hc
      · have hlen1 : st.lLen = 1 := by
          have := inv.best_len
          omega
        have hps : st.prev = st.runStart := by
          have := inv.run_le
          omega
        rw [hc2, ← hps]
        exact hprev1
    refine ⟨⟨inv.best_le, inv.best_mem, inv.best_left, hclosed⟩, ?_, ?_, ?_,
      hprev_mem, hmax⟩
    · show st.lLen = st.lEnd - st.lStart + 1
      exact inv.best_len
    · show 1 ≤ st.lLen
      have h3 := inv.best_len
      have h4 := inv.best_le
      omega
    · intro a b hab
      by_cases hbr : b < st.runStart
      · exact inv.best_best a b hab hbr
      · push_neg at hbr
        obtain ⟨ha, hb⟩ := huniq a b hab hbr
        have hrle : b - a + 1 ≤ st.lLen := by omega
        rcases eq_or_lt_of_le hrle with heq | hlt
        · right
          refine ⟨heq, ?_⟩
          show st.lStart ≤ a
          have := inv.best_start_le
          omega
        · left
          exact hlt

theorem getLast_of_concat (s init : List Int) (p : Int) (hd : s = init ++ [p])
    (h : s ≠ []) : s.getLast h = p := by
  subst hd
  exact List.getLast_concat init

/-! Properties of `activeDays`. -/

theorem activeDays_sorted (m : List (Int × Int)) :
    (activeDays m).Sorted (fun a b => a ≤ b) :=
  List.sorted_insertionSort _ _

theorem activeDays_perm (m : List (Int × Int)) :
    (activeDays m).Perm ((m.filter (fun p => 0 < p.2)).map Prod.fst) :=
  List.perm_insertionSort _ _

theorem mem_activeDays (m : List (Int × Int)) (x : Int) :
    x ∈ activeDays m ↔ x ∈ (m.filter (fun p => 0 < p.2)).map Prod.fst :=
  (activeDays_perm m).mem_iff

theorem activeDays_nodup (m : List (Int × Int)) (hnd : (m.map Prod.fst).Nodup) :
    (activeDays m).Nodup := by
  have h1 : ((m.filter (fun p => 0 < p.2)).map Prod.fst).Sublist (m.map Prod.fst) :=
    List.Sublist.map Prod.fst (List.filter_sublist m)
  exact (activeDays_perm m).nodup_iff.mpr (List.Nodup.sublist h1 hnd)

theorem activeDays_sorted_lt (m : List (Int × Int)) (hnd : (m.map Prod.fst).Nodup) :
    (activeDays m).Sorted (· < ·) :=
  List.Sorted.lt_of_le (activeDays_sorted m) (activeDays_nodup m hnd)

theorem compute_streaks_eq_of_active (m : List (Int × Int)) (today a0 : Int)
    (rest : List Int) (h : activeDays m = a0 :: rest) :
    compute_streaks m today = streaksFromActive a0 rest (totalContributions m) today := by
  unfold compute_streaks
  rw [h]

theorem streaksFromActive_eq (a0 : Int) (rest : List Int) (total today : Int) :
    streaksFromActive a0 rest total today =
      if 1 < today - (a0 :: rest).getLast (List.cons_ne_nil a0 rest) then
        ⟨total, 0, (finalizeScan (longestScan ⟨1, a0, a0, a0, a0⟩ rest)).1, none, none,
          some (finalizeScan (longestScan ⟨1, a0, a0, a0, a0⟩ rest)).2.1,
          some (finalizeScan (longestScan ⟨1, a0, a0, a0, a0⟩ rest)).2.2⟩
      else
        ⟨total,
          (a0 :: rest).getLast (List.cons_ne_nil a0 rest)
            - extendBack (a0 :: rest) (a0 :: rest).length
                ((a0 :: rest).getLast (List.cons_ne_nil a0 rest)) + 1,
          (finalizeScan (longestScan ⟨1, a0, a0, a0, a0⟩ rest)).1,
          some (extendBack (a0 :: rest) (a0 :: rest).length
            ((a0 :: rest).getLast (List.cons_ne_nil a0 rest))),
          some ((a0 :: rest).getLast (List.cons_ne_nil a0 rest)),
          some (finalizeScan (longestScan ⟨1, a0, a0, a0, a0⟩ rest)).2.1,
          some (finalizeScan (longestScan ⟨1, a0, a0, a0, a0⟩ rest)).2.2⟩ := rfl

theorem sorted_le_getLast (s : List Int) (hs : s.Sorted (· < ·)) (h : s ≠ []) :
    ∀ x ∈ s, x ≤ s.getLast h :=
  sorted_max_of_concat s s.dropLast (s.getLast h) hs (List.dropLast_append_getLast h).symm

theorem compute_streaks_spec (m : List (Int × Int)) (today : Int)
    (hnd : (m.map Prod.fst).Nodup) (a0 : Int) (rest : List Int)
    (hact : activeDays m = a0 :: rest) :
    ∃ latest,
      latest ∈ activeDays m ∧ (∀ x ∈ activeDays m, x ≤ latest) ∧
      (∃ ls le,
        (compute_streaks m today).longest_start = some ls ∧
        (compute_streaks m today).longest_end = some le ∧
        isRun (activeDays m) ls le ∧
        (compute_streaks m today).longest_streak = le - ls + 1 ∧
        1 ≤ (compute_streaks m today).longest_streak ∧
        (∀ a b, isRun (activeDays m) a b →
          (b - a + 1 < (compute_streaks m today).longest_streak ∨
            (b - a + 1 = (compute_streaks m today).longest_streak ∧ ls ≤ a)))) ∧
      (1 < today - latest →
        (compute_streaks m today).current_streak = 0 ∧
        (compute_streaks m today).current_start = none ∧
        (compute_streaks m today).current_end = none) ∧
      (¬ 1 < today - latest →
        ∃ cs, (compute_streaks m today).current_start = some cs ∧
          (compute_streaks m today).current_end = some latest ∧
          (compute_streaks m today).current_streak = latest - cs + 1 ∧
          cs ≤ latest ∧
          (∀ x, cs ≤ x → x ≤ latest → x ∈ activeDays m) ∧
          (cs - 1) ∉ activeDays m) := by
  have hs : (a0 :: rest).Sorted (· < ·) := by
    rw [← hact]
    exact activeDays_sorted_lt m hnd
  have inv : ScanInv (a0 :: rest) (longestScan ⟨1, a0, a0, a0, a0⟩ rest) [] :=
    longestScan_inv (a0 :: rest) hs rest ⟨1, a0, a0, a0, a0⟩
      (scanInv_init (a0 :: rest) hs a0 rest rfl)
  obtain ⟨hrun, hlen, hone, hbest, hprev_mem, hprev_max⟩ :=
    finalizeScan_spec (a0 :: rest) hs (longestScan ⟨1, a0, a0, a0, a0⟩ rest) inv
  obtain ⟨init, hinit⟩ := inv.decomp
  have hlast : (a0 :: rest).getLast (List.cons_ne_nil a0 rest) =
      (longestScan ⟨1, a0, a0, a0, a0⟩ rest).prev :=
    getLast_of_concat (a0 :: rest) init _ hinit (List.cons_ne_nil a0 rest)
  have hcs : compute_streaks m today =
      streaksFromActive a0 rest (totalContributions m) today :=
    compute_streaks_eq_of_active m today a0 rest hact
  refine ⟨(longestScan ⟨1, a0, a0, a0, a0⟩ rest).prev, ?_, ?_, ?_, ?_, ?_⟩
  · rw [hact]
    exact hprev_mem
  · intro x hx
    rw [hact] at hx
    exact hprev_max x hx
  · rw [hcs, streaksFromActive_eq, hlast, hact]
    by_cases htoday : 1 < today - (longestScan ⟨1, a0, a0, a0, a0⟩ rest).prev
    · rw [if_pos htoday]
      exact ⟨(finalizeScan (longestScan ⟨1, a0, a0, a0, a0⟩ rest)).2.1,
        (finalizeScan (longestScan ⟨1, a0, a0, a0, a0⟩ rest)).2.2,
        rfl, rfl, hrun, hlen, hone, hbest⟩
    · rw [if_neg htoday]
      exact ⟨(finalizeScan (longestScan ⟨1, a0, a0, a0, a0⟩ rest)).2.1,
        (finalizeScan (longestScan ⟨1, a0, a0, a0, a0⟩ rest)).2.2,
        rfl, rfl, hrun, hlen, hone, hbest⟩
  · intro htoday
    rw [hcs, streaksFromActive_eq, hlast, if_pos htoday]
    exact ⟨rfl, rfl, rfl⟩
  · intro htoday
    rw [hcs, streaksFromActive_eq, hlast, if_neg htoday, hact]
    obtain ⟨hcs_le, hcs_int, hcs_left⟩ :=
      extendBack_spec (a0 :: rest) ((a0 :: rest).getLast (List.cons_ne_nil a0 rest))
        (List.getLast_mem (List.cons_ne_nil a0 rest))
    rw [hlast] at hcs_le hcs_int hcs_left
    exact ⟨extendBack (a0 :: rest) (a0 :: rest).length
        (longestScan ⟨1, a0, a0, a0, a0⟩ rest).prev,
      rfl, rfl, rfl, hcs_le, hcs_int, hcs_left⟩

/-- C1 counterexample: on the map `{Jan 1: 1, Jan 2: 1, Jan 3: 1, Jan 5: 1}`
(days 1, 2, 3, 5) with reference date Jan 3, `compute_streaks` does not
return the claimed stats (total 4, current 3 over Jan 1–Jan 3, longest 3
over Jan 1–Jan 3): the code anchors the current streak at the latest active
day Jan 5 even though it lies after the reference date. -/
theorem claim_C1_counterexample :
    compute_streaks [(1, 1), (2, 1), (3, 1), (5, 1)] 3 ≠
      ⟨4, 3, 3, some 1, some 3, some 1, some 3⟩ := by
  decide

/-- C1 (amended): on `{Jan 1: 1, Jan 2: 1, Jan 3: 1, Jan 5: 1}` with
reference date Jan 3, `compute_streaks` returns total_contributions = 4,
longest_streak = 3 with span Jan 1–Jan 3, but current_streak = 1 with span
Jan 5–Jan 5, since `latest = active_days[-1] = Jan 5` and
`(today - latest).days = -2` is not greater than 1. -/
theorem claim_C1_amended :
    compute_streaks [(1, 1), (2, 1), (3, 1), (5, 1)] 3 =
      ⟨4, 1, 3, some 5, some 5, some 1, some 3⟩ := by
  decide

/-- C6: for every ContributionMap (unique keys, as a dict guarantees) and
every reference date, `longest_streak ≥ current_streak`. -/
theorem claim_C6 (m : List (Int × Int)) (today : Int)
    (hnd : (m.map Prod.fst).Nodup) :
    (compute_streaks m today).current_streak ≤ (compute_streaks m today).longest_streak := by
  by_cases hemp : activeDays m = []
  · rw [show compute_streaks m today = ⟨0, 0, 0, none, none, none, none⟩ by
      unfold compute_streaks; rw [hemp]]
  · obtain ⟨a0, rest, hact⟩ := List.exists_cons_of_ne_nil hemp
    obtain ⟨latest, hmem, hmax, ⟨ls, le', h1, h2, hrun, hlen, hone, hbest⟩, hstale, hlive⟩ :=
      compute_streaks_spec m today hnd a0 rest hact
    by_cases htoday : 1 < today - latest
    · obtain ⟨hz, _, _⟩ := hstale htoday
      rw [hz]
      omega
    · obtain ⟨cs, _, _, hcur, hcs_le, hcs_int, hcs_left⟩ := hlive htoday
      have hlatest1 : (latest + 1) ∉ activeDays m := by
        intro hc
        have := hmax _ hc
        omega
      have hrun2 : isRun (activeDays m) cs latest := ⟨hcs_le, hcs_int, hcs_left, hlatest1⟩
      rcases hbest cs latest hrun2 with hlt | ⟨heq, _⟩
      · rw [hcur]
        omega
      · rw [hcur]
        omega

/-- Witness for C6 at a concrete map. -/
theorem claim_C6_witness :
    (compute_streaks [(1, 2)] 5).current_streak ≤
      (compute_streaks [(1, 2)] 5).longest_streak :=
  claim_C6 [(1, 2)] 5 (by decide)

/-- C4: the strict greater-than comparison at run closure means the reported
longest run is a maximal run whose length equals longest_streak, and every
maximal run is either strictly shorter or of equal length but starting no
earlier than the reported one (earliest run wins ties); in particular
active days `{Jan 1, Jan 2, Jan 10, Jan 11}` with a far-future reference
date yield longest span Jan 1–Jan 2. -/
theorem claim_C4 :
    (∀ (m : List (Int × Int)) (today : Int), (m.map Prod.fst).Nodup →
      activeDays m ≠ [] →
      ∃ ls le, (compute_streaks m today).longest_start = some ls ∧
        (compute_streaks m today).longest_end = some le ∧
        isRun (activeDays m) ls le ∧
        (compute_streaks m today).longest_streak = le - ls + 1 ∧
        (∀ a b, isRun (activeDays m) a b →
          (b - a + 1 < (compute_streaks m today).longest_streak ∨
            (b - a + 1 = (compute_streaks m today).longest_streak ∧ ls ≤ a)))) ∧
    ((compute_streaks [(1, 1), (2, 1), (10, 1), (11, 1)] 1000).longest_start = some 1 ∧
      (compute_streaks [(1, 1), (2, 1), (10, 1), (11, 1)] 1000).longest_end = some 2) := by
  constructor
  · intro m today hnd hne
    obtain ⟨a0, rest, hact⟩ := List.exists_cons_of_ne_nil hne
    obtain ⟨latest, _, _, ⟨ls, le', h1, h2, hrun, hlen, hone, hbest⟩, _, _⟩ :=
      compute_streaks_spec m today hnd a0 rest hact
    exact ⟨ls, le', h1, h2, hrun, hlen, hbest⟩
  · exact ⟨by decide, by decide⟩

/-- Witness for C4 at a concrete two-run map. -/
theorem claim_C4_witness :
    ∃ ls le, (compute_streaks [(1, 1), (2, 1), (10, 1), (11, 1)] 1000).longest_start = some ls ∧
      (compute_streaks [(1, 1), (2, 1), (10, 1), (11, 1)] 1000).longest_end = some le ∧
      isRun (activeDays [(1, 1), (2, 1), (10, 1), (11, 1)]) ls le ∧
      (compute_streaks [(1, 1), (2, 1), (10, 1), (11, 1)] 1000).longest_streak = le - ls + 1 ∧
      (∀ a b, isRun (activeDays [(1, 1), (2, 1), (10, 1), (11, 1)]) a b →
        (b - a + 1 < (compute_streaks [(1, 1), (2, 1), (10, 1), (11, 1)] 1000).longest_streak ∨
          (b - a + 1 = (compute_streaks [(1, 1), (2, 1), (10, 1), (11, 1)] 1000).longest_streak ∧
            ls ≤ a))) :=
  claim_C4.1 [(1, 1), (2, 1), (10, 1), (11, 1)] 1000 (by decide) (by decide)

/-- C10: when the reference date lies strictly before the latest active day,
the negative day difference still passes the `> 1` staleness test, so
`compute_streaks` reports a live current streak ending at the latest active
day, with current_start found by the backward walk over consecutive active
days. -/
theorem claim_C10 (m : List (Int × Int)) (today latest : Int)
    (hnd : (m.map Prod.fst).Nodup)
    (hmem : latest ∈ activeDays m) (hmax : ∀ x ∈ activeDays m, x ≤ latest)
    (htoday : today < latest) :
    0 < (compute_streaks m today).current_streak ∧
    (compute_streaks m today).current_end = some latest ∧
    ∃ cs, (compute_streaks m today).current_start = some cs ∧
      (compute_streaks m today).current_streak = latest - cs + 1 ∧
      cs ≤ latest ∧ (∀ x, cs ≤ x → x ≤ latest → x ∈ activeDays m) ∧
      (cs - 1) ∉ activeDays m := by
  have hne : activeDays m ≠ [] := by
    intro h
    rw [h] at hmem
    simp at hmem
  obtain ⟨a0, rest, hact⟩ := List.exists_cons_of_ne_nil hne
  obtain ⟨latest', hmem', hmax', _, _, hlive⟩ :=
    compute_streaks_spec m today hnd a0 rest hact
  have heq : latest' = latest := le_antisymm (hmax _ hmem') (hmax' _ hmem)
  subst heq
  obtain ⟨cs, h1, h2, h3, h4, h5, h6⟩ := hlive (by omega)
  exact ⟨by rw [h3]; omega, h2, cs, h1, h3, h4, h5, h6⟩

/-- Witness for C10: map `{day 5: 1}` with reference date 3 (before the
latest active day 5). -/
theorem claim_C10_witness :
    0 < (compute_streaks [(5, 1)] 3).current_streak ∧
    (compute_streaks [(5, 1)] 3).current_end = some 5 ∧
    ∃ cs, (compute_streaks [(5, 1)] 3).current_start = some cs ∧
      (compute_streaks [(5, 1)] 3).current_streak = 5 - cs + 1 ∧
      cs ≤ 5 ∧ (∀ x, cs ≤ x → x ≤ 5 → x ∈ activeDays [(5, 1)]) ∧
      (cs - 1) ∉ activeDays [(5, 1)] :=
  claim_C10 [(5, 1)] 3 5 (by decide) (by decide) (by decide) (by decide)

theorem activeDays_pair (a b : Int) (hab : a ≤ b) :
    activeDays [(a, 1), (b, 1)] = [a, b] := by
  unfold activeDays
  have h1 : (([(a, (1 : Int)), (b, 1)]).filter (fun p => 0 < p.2)).map Prod.fst =
      [a, b] := by
    simp
  rw [h1]
  simp [List.insertionSort, List.orderedInsert, hab]

theorem current_streak_pair (a : Int) (today : Int)
    (h1 : ¬ 1 < today - (a + 1)) :
    (compute_streaks [(a, 1), (a + 1, 1)] today).current_streak = 2 := by
  have hnd : (([(a, (1 : Int)), (a + 1, 1)]).map Prod.fst).Nodup := by
    simp
  have hact : activeDays [(a, 1), (a + 1, 1)] = [a, a + 1] :=
    activeDays_pair a (a + 1) (by omega)
  obtain ⟨latest, hmem, hmax, _, _, hlive⟩ :=
    compute_streaks_spec [(a, 1), (a + 1, 1)] today hnd a [a + 1] hact
  have hmem2 : (a + 1) ∈ activeDays [(a, 1), (a + 1, 1)] := by
    rw [hact]
    simp
  have hlatest : latest = a + 1 := by
    rw [hact] at hmem
    have h2 := hmax _ hmem2
    simp only [List.mem_cons, List.mem_singleton, List.not_mem_nil, or_false] at hmem
    omega
  subst hlatest
  obtain ⟨cs, hs1, hs2, hs3, hs4, hs5, hs6⟩ := hlive h1
  have hcsmem : cs ∈ activeDays [(a, 1), (a + 1, 1)] := hs5 cs (le_refl cs) hs4
  rw [hact] at hcsmem hs6
  simp only [List.mem_cons, List.mem_singleton, List.not_mem_nil, or_false] at hcsmem hs6
  have hcs : cs = a := by
    rcases hcsmem with hc | hc
    · exact hc
    · exfalso
      apply hs6
      left
      omega
  rw [hs3, hcs]
  omega

/-- C2: there is no current streak (current_streak = 0 with both ends
absent) exactly when the reference date minus the latest active day exceeds
one day; otherwise current_end is the latest active day, current_start is
the earliest day reachable from it through consecutive active days, and
current_streak is the inclusive span.  In particular active days
`{D-2, D-1}` with reference date `D` give current_streak = 2, while
`{D-3, D-2}` give current_streak = 0. -/
theorem claim_C2 :
    (∀ (m : List (Int × Int)) (today : Int), (m.map Prod.fst).Nodup →
      ∀ (hne : activeDays m ≠ []),
      (1 < today - (activeDays m).getLast hne →
        (compute_streaks m today).current_streak = 0 ∧
        (compute_streaks m today).current_start = none ∧
        (compute_streaks m today).current_end = none) ∧
      (¬ 1 < today - (activeDays m).getLast hne →
        ∃ cs, (compute_streaks m today).current_start = some cs ∧
          (compute_streaks m today).current_end = some ((activeDays m).getLast hne) ∧
          (compute_streaks m today).current_streak =
            (activeDays m).getLast hne - cs + 1 ∧
          cs ≤ (activeDays m).getLast hne ∧
          (∀ x, cs ≤ x → x ≤ (activeDays m).getLast hne → x ∈ activeDays m) ∧
          (cs - 1) ∉ activeDays m)) ∧
    (∀ D : Int, (compute_streaks [(D - 2, 1), (D - 1, 1)] D).current_streak = 2) ∧
    (∀ D : Int, (compute_streaks [(D - 3, 1), (D - 2, 1)] D).current_streak = 0) := by
  refine ⟨?_, ?_, ?_⟩
  · intro m today hnd hne
    obtain ⟨a0, rest, hact⟩ := List.exists_cons_of_ne_nil hne
    obtain ⟨latest, hmem, hmax, _, hstale, hlive⟩ :=
      compute_streaks_spec m today hnd a0 rest hact
    have hglmem : (activeDays m).getLast hne ∈ activeDays m := List.getLast_mem hne
    have hgl_max : ∀ x ∈ activeDays m, x ≤ (activeDays m).getLast hne :=
      sorted_le_getLast (activeDays m) (activeDays_sorted_lt m hnd) hne
    have heq : latest = (activeDays m).getLast hne :=
      le_antisymm (hgl_max latest hmem) (hmax _ hglmem)
    rw [← heq]
    exact ⟨hstale, hlive⟩
  · intro D
    have h2 : D - 1 = (D - 2) + 1 := by omega
    rw [show ([((D : Int) - 2, (1 : Int)), (D - 1, 1)]) = [(D - 2, 1), ((D - 2) + 1, 1)] by
      rw [← h2]]
    exact current_streak_pair (D - 2) D (by omega)
  · intro D
    have hnd : (([((D : Int) - 3, (1 : Int)), (D - 2, 1)]).map Prod.fst).Nodup := by
      simp
    have hact : activeDays [(D - 3, 1), (D - 2, 1)] = [D - 3, D - 2] :=
      activeDays_pair (D - 3) (D - 2) (by omega)
    obtain ⟨latest, hmem, hmax, _, hstale, _⟩ :=
      compute_streaks_spec [(D - 3, 1), (D - 2, 1)] D hnd (D - 3) [D - 2] hact
    have hmem2 : (D - 2) ∈ activeDays [(D - 3, 1), (D - 2, 1)] := by
      rw [hact]
      simp
    have hlatest : latest = D - 2 := by
      rw [hact] at hmem
      have h2 := hmax _ hmem2
      simp only [List.mem_cons, List.mem_singleton, List.not_mem_nil, or_false] at hmem
      omega
    subst hlatest
    exact (hstale (by omega)).1

/-- Witness for C2 at the concrete reference date 2 (active days 0 and 1). -/
theorem claim_C2_witness :
    (compute_streaks [((2 : Int) - 2, 1), ((2 : Int) - 1, 1)] 2).current_streak = 2 :=
  claim_C2.2.1 2
